import Mathlib

set_option maxRecDepth 2000

/-!
Verification of the `xtrace_stats.py` trace-log analyzer from the
webspherescripts repository: a shallow embedding of its line parsing
(`LINE_RE`, `iter_lines`), clock normalization, per-thread call-stack
reconstruction and aggregation (`compute_stats`), and name shortening
(`ellipsize_middle`), together with proofs of the specified properties.
Machine integers are modelled as `Int`/`Nat` (Python integers are unbounded),
strings as `String`/`List Char`, and the float average as an exact rational.
-/

namespace XtraceStats

/-- One day in milliseconds, `24 * 60 * 60 * 1000` from `compute_stats`. -/
def dayMs : Int := 24 * 60 * 60 * 1000

/-- The regex class matched by `\s` (ASCII range), used by the `\s+` pieces
of `LINE_RE` and by `str.strip()` in `iter_lines`. -/
def isPySpace (c : Char) : Bool :=
  c = ' ' || c = '\t' || c = '\n' || c = '\x0b' || c = '\x0c' || c = '\r'

/-- The regex class matched by `\d` (ASCII digits) in `LINE_RE`. -/
def isPyDigit (c : Char) : Bool := '0' ≤ c && c ≤ '9'

/-- The class `[0-9a-fA-F]` of the thread-id piece of `LINE_RE`. -/
def isHexDigit (c : Char) : Bool :=
  isPyDigit c || ('a' ≤ c && c ≤ 'f') || ('A' ≤ c && c ≤ 'F')

/-- The timestamp separator class `[:.]` of `LINE_RE`. -/
def isTsSep (c : Char) : Bool := c = ':' || c = '.'

/-- The direction-marker class `[<>]` of `LINE_RE`. -/
def isMarker (c : Char) : Bool := c = '<' || c = '>'

/-- The regex tail `\s+(?P<method>\S+)` that must follow a direction marker:
at least one whitespace character, then a nonempty run of non-whitespace
characters (the method signature, taken maximally as `\S+` is greedy).
Returns the method token when the tail matches at the start of `cs`. -/
def checkWsToken (cs : List Char) : Option (List Char) :=
  match cs with
  | [] => none
  | c :: rest =>
    if isPySpace c then
      let tok := (rest.dropWhile isPySpace).takeWhile (fun d => !isPySpace d)
      if tok.isEmpty then none else some tok
    else none

/-- The lazy search `.*?(?P<arrow>[<>])\s+(?P<method>\S+)` of `LINE_RE`:
scan left to right for the first direction marker whose suffix matches
`\s+\S+`; markers that fail that condition are absorbed into `.*?` and the
scan continues, and `.` cannot cross a newline.  Returns the marker and the
method token. -/
def findArrow : List Char → Option (Char × List Char)
  | [] => none
  | c :: rest =>
    if c = '\n' then none
    else if isMarker c then
      match checkWsToken rest with
      | some tok => some (c, tok)
      | none => findArrow rest
    else findArrow rest

/-- The anchored head
`^(?P<ts>\d{2}[:.]\d{2}[:.]\d{2}[:.]\d{3})\s+(?P<tid>0x[0-9a-fA-F]+)\s+` of
`LINE_RE`: a 12-character timestamp, whitespace, a `0x` hexadecimal thread
token, whitespace.  Returns the timestamp characters, the thread id, and the
remainder of the line after the whitespace run following the thread id.
These pieces of the regex are deterministic: each `\s+` and the hexadecimal
run must be maximal, because shortening them only leaves a character of the
same class where the following piece expects a different class. -/
def parseHead (cs : List Char) : Option (List Char × String × List Char) :=
  match cs with
  | a1 :: a2 :: s1 :: b1 :: b2 :: s2 :: c1 :: c2 :: s3 :: m1 :: m2 :: m3 :: rest =>
    if isPyDigit a1 && isPyDigit a2 && isTsSep s1 && isPyDigit b1 && isPyDigit b2 && isTsSep s2
        && isPyDigit c1 && isPyDigit c2 && isTsSep s3
        && isPyDigit m1 && isPyDigit m2 && isPyDigit m3 then
      match rest with
      | w :: rest1 =>
        if isPySpace w then
          match rest1.dropWhile isPySpace with
          | z :: x :: rest2 =>
            if z = '0' && x = 'x' then
              let run := rest2.takeWhile isHexDigit
              if run.isEmpty then none
              else
                match rest2.dropWhile isHexDigit with
                | w2 :: rest3 =>
                  if isPySpace w2 then
                    some ([a1, a2, s1, b1, b2, s2, c1, c2, s3, m1, m2, m3],
                      String.mk ('0' :: 'x' :: run), rest3.dropWhile isPySpace)
                  else none
                | [] => none
            else none
          | _ => none
        else none
      | [] => none
    else none
  | _ => none

/-- `LINE_RE.search` applied to one line: the pattern is anchored with `^`
(and the input has no embedded newline), so this is a match at position 0.
Returns the groups `(ts, tid, arrow, method)`, or `none` when the line does
not match the grammar in full. -/
def parseLine (cs : List Char) : Option (List Char × String × Char × String) :=
  match parseHead cs with
  | some (ts, tid, rest) =>
    match findArrow rest with
    | some (ar, tok) => some (ts, tid, ar, String.mk tok)
    | none => none
  | none => none

/-- A suffix of a line qualifies as a match position for the regex tail when
it starts with a direction marker followed by `\s+\S+`. -/
def qualifies (cs : List Char) : Bool :=
  match cs with
  | [] => false
  | c :: rest => isMarker c && (checkWsToken rest).isSome

/-- Written from the claim: the first occurrence of a direction marker after
the thread token (the whitespace run following the thread id contains no
marker, so searching after it is the same as searching after the token). -/
def firstMarkerAfterTid (cs : List Char) : Option Char :=
  match parseHead cs with
  | some (_, _, rest) => rest.find? isMarker
  | none => none

/-- A digit character's value, as used by `int()` in `parse_ts_ms`. -/
def digitVal (c : Char) : Nat := c.toNat - '0'.toNat

/-- `parse_ts_ms`: convert the matched timestamp `HH[:.]MM[:.]SS[:.]mmm`
(always exactly 12 characters for a `LINE_RE` match) to milliseconds since
the start of the day, `((h * 60 + m) * 60 + s) * 1000 + ms`.  The catch-all
arm is never reached from `parseLine` output. -/
def parse_ts_ms (ts : List Char) : Nat :=
  match ts with
  | [a1, a2, _, b1, b2, _, c1, c2, _, m1, m2, m3] =>
    ((10 * digitVal a1 + digitVal a2) * 60 + (10 * digitVal b1 + digitVal b2)) * 60 * 1000
      + (10 * digitVal c1 + digitVal c2) * 1000
      + (100 * digitVal m1 + 10 * digitVal m2 + digitVal m3)
  | _ => 0

/-- One line of `iter_lines`: blank lines (`line.strip()` empty) are skipped,
every other line is matched against `LINE_RE`. -/
def lineEvent (l : String) : Option (List Char × String × Char × String) :=
  if l.toList.all isPySpace then none else parseLine l.toList

/-- `iter_lines`: the match groups of every matching line, in order. -/
def iterLines (lines : List String) : List (List Char × String × Char × String) :=
  lines.filterMap lineEvent

/-- A parsed trace event after timestamp conversion: time of day in
milliseconds, thread id, direction marker and method signature. -/
structure Event where
  ms : Nat
  tid : String
  arrow : Char
  method : String

/-- The event stream of the input, with `parse_ts_ms` applied to the
timestamp group as in the main loop of `compute_stats`. -/
def toEvents (lines : List String) : List Event :=
  (iterLines lines).map (fun r => ⟨parse_ts_ms r.1, r.2.1, r.2.2.1, r.2.2.2⟩)

/-- The rollover handling of `compute_stats`: `abs_ms = ms + day_offset`;
if `last_abs_ms` is set and `abs_ms < last_abs_ms`, add one day to
`day_offset` and recompute `abs_ms`.  Returns the absolute time and the new
`day_offset`. -/
def normStep (lastAbs : Option Int) (dayOffset : Int) (ms : Int) : Int × Int :=
  let absMs := ms + dayOffset
  match lastAbs with
  | some l =>
    if absMs < l then (ms + (dayOffset + dayMs), dayOffset + dayMs) else (absMs, dayOffset)
  | none => (absMs, dayOffset)

/-- The absolute times the Clock Normalizer assigns to a sequence of
time-of-day values, from a given `last_abs_ms` and `day_offset`
(`none` and `0` at the start of a run). -/
def absTimes (lastAbs : Option Int) (dayOffset : Int) : List Nat → List Int
  | [] => []
  | t :: ts =>
    let p := normStep lastAbs dayOffset (t : Int)
    p.1 :: absTimes (some p.1) p.2 ts

/-- The exit-matching loop of `compute_stats`: pop frames from the thread's
stack (modelled with the top of the stack as the head of the list) until one
with the exit's method is found, collecting the popped non-matching frames
in `temp` in pop order; the trailing put-back loop then pushes `temp` back,
so the net stack is `temp` (in its original order) on top of what remains.
Returns the matched frame, if any, and the net stack. -/
def popMatch (method : String) : List (String × Int) → List (String × Int) →
    Option (String × Int) × List (String × Int)
  | [], temp => (none, temp)
  | f :: rest, temp =>
    if f.1 = method then (some f, temp ++ rest) else popMatch method rest (temp ++ [f])

/-- The per-method statistics table in insertion order:
`(method, count, total_ms)` entries.  `stats[method]` in the source is a
`defaultdict` entry `{count: 0, total_ms: 0}` created on first use, then
incremented, which nets to appending `(method, 1, dur)` for a new method. -/
def updateStats : List (String × Nat × Int) → String → Int → List (String × Nat × Int)
  | [], method, dur => [(method, 1, dur)]
  | e :: rest, method, dur =>
    if e.1 = method then (e.1, e.2.1 + 1, e.2.2 + dur) :: rest
    else e :: updateStats rest method dur

/-- The `count` field of a method's statistics (`0` when absent). -/
def statCount : List (String × Nat × Int) → String → Nat
  | [], _ => 0
  | e :: rest, method => if e.1 = method then e.2.1 else statCount rest method

/-- The `total_ms` field of a method's statistics (`0` when absent). -/
def statTotal : List (String × Nat × Int) → String → Int
  | [], _ => 0
  | e :: rest, method => if e.1 = method then e.2.2 else statTotal rest method

/-- The mutable state of `compute_stats`: the per-thread call stacks, the
statistics table, and the rollover state `last_abs_ms` / `day_offset`. -/
structure St where
  callStacks : String → List (String × Int)
  stats : List (String × Nat × Int)
  lastAbs : Option Int
  dayOffset : Int

/-- The state at the start of a run: all stacks empty, no statistics,
`last_abs_ms = None`, `day_offset = 0`. -/
def initSt : St := ⟨fun _ => [], [], none, 0⟩

/-- One iteration of the main loop of `compute_stats` on a parsed event:
normalize the timestamp, then push a frame on `'>'`, otherwise match the
exit against the thread's stack; a matched exit updates the statistics only
when its duration is nonnegative.  The completed interval
`(method, duration)` of a matched exit is also returned, for the proofs. -/
def stepEvent (σ : St) (e : Event) : St × Option (String × Int) :=
  let p := normStep σ.lastAbs σ.dayOffset (e.ms : Int)
  let σ1 : St := { σ with lastAbs := some p.1, dayOffset := p.2 }
  if e.arrow = '>' then
    ({ σ1 with callStacks := Function.update σ1.callStacks e.tid ((e.method, p.1) :: σ1.callStacks e.tid) },
      none)
  else
    match popMatch e.method (σ1.callStacks e.tid) [] with
    | (some f, rest) =>
      let dur := p.1 - f.2
      ({ σ1 with
          callStacks := Function.update σ1.callStacks e.tid rest
          stats := if 0 ≤ dur then updateStats σ1.stats e.method dur else σ1.stats },
        some (e.method, dur))
    | (none, _) => (σ1, none)

/-- The main loop of `compute_stats` over the event stream, also collecting
every completed interval in order. -/
def runEvents (σ : St) : List Event → St × List (String × Int)
  | [] => (σ, [])
  | e :: es =>
    let p := stepEvent σ e
    let r := runEvents p.1 es
    (r.1, p.2.toList ++ r.2)

/-- A result row of `compute_stats`: `(method, count, total_ms, avg)`. -/
abbrev Row := String × Nat × Int × ℚ

/-- A result row `(method, count, total_ms, avg)` of `compute_stats`; the
average `total_ms / count` (`0` when `count` is `0`) is modelled as an exact
rational where the source computes a Python float. -/
def mkRow (e : String × Nat × Int) : Row :=
  (e.1, e.2.1, e.2.2, if e.2.1 = 0 then 0 else (e.2.2 : ℚ) / (e.2.1 : ℚ))

/-- The default sort comparison of `compute_stats`: ascending in the key
`(-avg, -count, method)`, i.e. lexicographic on that tuple. -/
def rowLE (a b : Row) : Bool :=
  if b.2.2.2 < a.2.2.2 then true
  else if a.2.2.2 < b.2.2.2 then false
  else if b.2.1 < a.2.1 then true
  else if a.2.1 < b.2.1 then false
  else a.1 ≤ b.1

/-- `rowLE` as a relation, for sorting. -/
def rowOrder (a b : Row) : Prop := rowLE a b = true

instance : DecidableRel rowOrder := fun a b => inferInstanceAs (Decidable (rowLE a b = true))

/-- Written from the spec: order rows by descending average duration, ties
broken by descending count, then by ascending method name. -/
def reporterOrder (a b : Row) : Prop :=
  b.2.2.2 < a.2.2.2 ∨
    (a.2.2.2 = b.2.2.2 ∧ (b.2.1 < a.2.1 ∨ (a.2.1 = b.2.1 ∧ a.1 ≤ b.1)))

/-- The unsorted result list of `compute_stats`: one row per method, in
insertion order of the statistics table. -/
def rawResult (lines : List String) : List Row :=
  ((runEvents initSt (toEvents lines)).1.stats).map mkRow

/-- `compute_stats`: parse, reconstruct, aggregate, and sort in the default
order.  The sort is modelled with an insertion sort; the rows of an actual
run have pairwise distinct method names, so every correct sort produces the
same list and stability does not matter. -/
def computeStats (lines : List String) : List Row :=
  List.insertionSort rowOrder (rawResult lines)

/-- The method-name column width of `main`: `max(10, args.width)`. -/
def columnWidth (width : Int) : Int := max 10 width

/-- The ellipsis inserted by `ellipsize_middle` (its default argument). -/
def ellipsisChars : List Char := ['.', '.', '.']

/-- The local `keep = max_len - len(ellipsis)` of `ellipsize_middle`
(`max_len > 3` whenever it is used, so `toNat` loses nothing). -/
def ellipKeep (maxLen : Int) : Nat := maxLen.toNat - ellipsisChars.length

/-- The local `left = (keep + 1) // 2` of `ellipsize_middle` (round up). -/
def ellipLeft (maxLen : Int) : Nat := (ellipKeep maxLen + 1) / 2

/-- The local `right = keep - left` of `ellipsize_middle` (round down). -/
def ellipRight (maxLen : Int) : Nat := ellipKeep maxLen - ellipLeft maxLen

/-- `ellipsize_middle`: shorten `text` to fit `maxLen` characters with a
middle ellipsis.  `text` is modelled as a character list and `maxLen` as a
Python int.  The slice `text[:n]` with `n ≥ 0` is `take n`, and
`text[-right:]` with `right > 0` is `drop (length - right)`, which agrees
with Python slicing also when `right > length` (whole text in both). -/
def ellipsize_middle (text : List Char) (maxLen : Int) : List Char :=
  if maxLen ≤ 0 then []
  else if (text.length : Int) ≤ maxLen then text
  else if maxLen ≤ (ellipsisChars.length : Int) then text.take maxLen.toNat
  else
    text.take (ellipLeft maxLen) ++ ellipsisChars ++
      (if 0 < ellipRight maxLen then text.drop (text.length - ellipRight maxLen) else [])

/-! ## Helper lemmas about the exit-matching loop -/

theorem popMatch_not_found (m : String) :
    ∀ (s temp : List (String × Int)), (∀ f ∈ s, f.1 ≠ m) →
      popMatch m s temp = (none, temp ++ s) := by
  intro s
  induction s with
  | nil => intro temp _; simp [popMatch]
  | cons f rest ih =>
    intro temp h
    have hf : f.1 ≠ m := h f (List.mem_cons_self f rest)
    have := ih (temp ++ [f]) (fun g hg => h g (List.mem_cons_of_mem f hg))
    simp only [popMatch, if_neg hf, this]
    simp

theorem popMatch_found (m : String) (f : String × Int) (hf : f.1 = m) :
    ∀ (above below temp : List (String × Int)), (∀ g ∈ above, g.1 ≠ m) →
      popMatch m (above ++ f :: below) temp = (some f, temp ++ (above ++ below)) := by
  intro above
  induction above with
  | nil => intro below temp _; simp [popMatch, hf]
  | cons g rest ih =>
    intro below temp h
    have hg : g.1 ≠ m := h g (List.mem_cons_self g rest)
    have hrec := ih below (temp ++ [g]) (fun u hu => h u (List.mem_cons_of_mem g hu))
    simp only [List.cons_append, popMatch, if_neg hg]
    refine hrec.trans ?_
    simp

/-- Claim C4: an `Exit` event on a thread whose stack has no frame for the
exit's method is dropped atomically: no interval is emitted, the statistics
do not change, and every thread's stack (in particular the event's own
thread's) holds exactly the same frames in the same order as before. -/
theorem unmatched_exit_dropped (σ : St) (e : Event)
    (harrow : e.arrow = '<')
    (hnone : ∀ f ∈ σ.callStacks e.tid, f.1 ≠ e.method) :
    (∀ t, (stepEvent σ e).1.callStacks t = σ.callStacks t) ∧
      (stepEvent σ e).1.stats = σ.stats ∧ (stepEvent σ e).2 = none := by
  have hne : ¬(e.arrow = '>') := by rw [harrow]; decide
  have hp : popMatch e.method (σ.callStacks e.tid) [] = (none, [] ++ σ.callStacks e.tid) :=
    popMatch_not_found e.method (σ.callStacks e.tid) [] hnone
  simp only [stepEvent, if_neg hne, hp]
  refine ⟨fun t => ?_, ?_, ?_⟩ <;> trivial

/-- Witness for C4 at a concrete state and event. -/
theorem unmatched_exit_dropped_witness :
    (∀ t, (stepEvent ⟨Function.update (fun _ => []) "0x1" [("A", 0)], [], none, 0⟩
        ⟨5, "0x1", '<', "C"⟩).1.callStacks t =
      (⟨Function.update (fun _ => []) "0x1" [("A", 0)], [], none, 0⟩ : St).callStacks t) ∧
      (stepEvent ⟨Function.update (fun _ => []) "0x1" [("A", 0)], [], none, 0⟩
        ⟨5, "0x1", '<', "C"⟩).1.stats = [] ∧
      (stepEvent ⟨Function.update (fun _ => []) "0x1" [("A", 0)], [], none, 0⟩
        ⟨5, "0x1", '<', "C"⟩).2 = none :=
  unmatched_exit_dropped ⟨Function.update (fun _ => []) "0x1" [("A", 0)], [], none, 0⟩
    ⟨5, "0x1", '<', "C"⟩ rfl (by decide)

/-- Claim C7: processing one event only ever touches the stack of the
event's own thread; the stack of every other thread id is unchanged. -/
theorem thread_isolation (σ : St) (e : Event) (t : String) (h : t ≠ e.tid) :
    (stepEvent σ e).1.callStacks t = σ.callStacks t := by
  by_cases ha : e.arrow = '>'
  · simp only [stepEvent, if_pos ha]
    exact Function.update_noteq h _ _
  · simp only [stepEvent, if_neg ha]
    rcases hp : popMatch e.method (σ.callStacks e.tid) [] with ⟨fo, rest⟩
    cases fo with
    | some f => simp only []; exact Function.update_noteq h _ _
    | none => rfl

/-- Witness for C7 at a concrete state, event and other thread id. -/
theorem thread_isolation_witness :
    (stepEvent ⟨Function.update (fun _ => []) "0x2" [("A", 0)], [], none, 0⟩
        ⟨7, "0x1", '>', "B"⟩).1.callStacks "0x2" =
      (⟨Function.update (fun _ => []) "0x2" [("A", 0)], [], none, 0⟩ : St).callStacks "0x2" :=
  thread_isolation ⟨Function.update (fun _ => []) "0x2" [("A", 0)], [], none, 0⟩
    ⟨7, "0x1", '>', "B"⟩ "0x2" (by decide)

/-- Counterexample to claim C1 as stated: on the sequence `Entry(A, 0)`,
`Entry(B, 1)`, `Exit(A, 2)` on one thread, the claim says the frame for `B`
(above the matched `A` frame) is popped and discarded, so that it can never
be matched by a later exit and never contributes an interval.  The code
instead puts the popped frame back: after the three events the thread's
stack still holds the `B` frame, and a later `Exit(B, 3)` matches it and
produces an interval, so `B`'s count is 1, not 0. -/
theorem exit_discard_counterexample :
    (runEvents initSt [⟨0, "0x1", '>', "A"⟩, ⟨1, "0x1", '>', "B"⟩,
        ⟨2, "0x1", '<', "A"⟩]).1.callStacks "0x1" = [("B", 1)] ∧
      statCount (runEvents initSt [⟨0, "0x1", '>', "A"⟩, ⟨1, "0x1", '>', "B"⟩,
        ⟨2, "0x1", '<', "A"⟩, ⟨3, "0x1", '<', "B"⟩]).1.stats "B" = 1 := by
  constructor
  · decide
  · decide

/-- Claim C1 as amended: on `Exit(method, t)` on a thread whose stack
contains a frame for that method, with the topmost matching frame at depth
`k`, the `k-1` frames above it are popped while searching but then put back
in their original order (so they remain available to later exits), the
matching frame is removed, and a completed interval
`(method, t - frame.start_time)` is emitted. -/
theorem exit_match_restores_frames_above (σ : St) (e : Event)
    (above : List (String × Int)) (f : String × Int) (below : List (String × Int))
    (harrow : e.arrow = '<')
    (hstack : σ.callStacks e.tid = above ++ f :: below)
    (habove : ∀ g ∈ above, g.1 ≠ e.method)
    (hf : f.1 = e.method) :
    (stepEvent σ e).1.callStacks e.tid = above ++ below ∧
      (stepEvent σ e).2 =
        some (e.method, (normStep σ.lastAbs σ.dayOffset (e.ms : Int)).1 - f.2) := by
  have hne : ¬(e.arrow = '>') := by rw [harrow]; decide
  have hp : popMatch e.method (σ.callStacks e.tid) [] = (some f, [] ++ (above ++ below)) := by
    rw [hstack]; exact popMatch_found e.method f hf above below [] habove
  simp only [stepEvent, if_neg hne, hp]
  exact ⟨by simp [Function.update_same], by trivial⟩

/-- Witness for amended C1: `Entry(A)`, `Entry(B)`, then `Exit(A)` leaves
the `B` frame on the stack and emits the interval for `A`. -/
theorem exit_match_restores_frames_above_witness :
    (stepEvent ⟨Function.update (fun _ => []) "0x1" [("B", 1), ("A", 0)], [], some 1, 0⟩
        ⟨2, "0x1", '<', "A"⟩).1.callStacks "0x1" = [("B", 1)] ∧
      (stepEvent ⟨Function.update (fun _ => []) "0x1" [("B", 1), ("A", 0)], [], some 1, 0⟩
        ⟨2, "0x1", '<', "A"⟩).2 =
        some ("A", (normStep (some 1) 0 ((2 : Nat) : Int)).1 - 0) :=
  exit_match_restores_frames_above
    ⟨Function.update (fun _ => []) "0x1" [("B", 1), ("A", 0)], [], some 1, 0⟩
    ⟨2, "0x1", '<', "A"⟩ [("B", 1)] ("A", 0) [] rfl (by decide) (by decide) rfl

/-! ## Clock normalization -/

theorem normStep_le (lastAbs : Option Int) (off t : Int) (ht0 : 0 ≤ t) (htd : t < dayMs)
    (hinv : ∀ l, lastAbs = some l → l < off + dayMs) :
    (∀ l, lastAbs = some l → l ≤ (normStep lastAbs off t).1) ∧
      (normStep lastAbs off t).1 < (normStep lastAbs off t).2 + dayMs := by
  cases lastAbs with
  | none =>
    simp only [normStep]
    exact ⟨fun l hl => absurd hl (by simp), by omega⟩
  | some l =>
    have hl := hinv l rfl
    simp only [normStep]
    by_cases h : t + off < l
    · rw [if_pos h]
      refine ⟨fun l2 hl2 => ?_, by omega⟩
      injection hl2 with he
      omega
    · rw [if_neg h]
      refine ⟨fun l2 hl2 => ?_, by omega⟩
      injection hl2 with he
      omega

theorem absTimes_chain (ts : List Nat) : ∀ (lastAbs : Option Int) (off : Int),
    (∀ t ∈ ts, (t : Int) < dayMs) →
    (∀ l, lastAbs = some l → l < off + dayMs) →
    (absTimes lastAbs off ts).Chain' (· ≤ ·) ∧
      ∀ l, lastAbs = some l → ∀ y ∈ (absTimes lastAbs off ts).head?, l ≤ y := by
  induction ts with
  | nil =>
    intro lastAbs off _ _
    exact ⟨List.chain'_nil, fun l _ y hy => by simp [absTimes] at hy⟩
  | cons t ts ih =>
    intro lastAbs off hval hinv
    have ht : (t : Int) < dayMs := hval t (List.mem_cons_self t ts)
    obtain ⟨hle, hlt⟩ := normStep_le lastAbs off (t : Int) (Int.natCast_nonneg t) ht hinv
    have hrec := ih (some (normStep lastAbs off (t : Int)).1) (normStep lastAbs off (t : Int)).2
      (fun u hu => hval u (List.mem_cons_of_mem t hu))
      (fun l hl => (Option.some_inj.mp hl) ▸ hlt)
    constructor
    · show List.Chain' (· ≤ ·)
        ((normStep lastAbs off (t : Int)).1 :: absTimes (some (normStep lastAbs off (t : Int)).1)
          (normStep lastAbs off (t : Int)).2 ts)
      rw [List.chain'_cons']
      exact ⟨fun y hy => hrec.2 _ rfl y hy, hrec.1⟩
    · intro l hl y hy
      have hy2 : y = (normStep lastAbs off (t : Int)).1 := by
        simp [absTimes] at hy
        exact hy.symm
      rw [hy2]
      exact hle l hl

/-- Claim C3: the Clock Normalizer computes `candidate = time_of_day +
day_offset`, adds one day-length and recomputes when the candidate is below
the previous absolute time, and (for time-of-day values below one
day-length, the range the timestamp format is specified for) the resulting
absolute-time sequence is monotonically non-decreasing.  In particular the
timestamps `23:59:59:900` and `00:00:00:100` map to `86399900` and
`86400100`, a difference of 200 ms. -/
theorem clock_rollover_monotone :
    (∀ ts : List Nat, (∀ t ∈ ts, (t : Int) < dayMs) →
        (absTimes none 0 ts).Chain' (· ≤ ·)) ∧
      absTimes none 0 [parse_ts_ms "23:59:59:900".toList, parse_ts_ms "00:00:00:100".toList] =
        [86399900, 86400100] := by
  refine ⟨fun ts h => (absTimes_chain ts none 0 h (fun l hl => by simp at hl)).1, by decide⟩

/-- Witness for C3 at the rollover pair from the spec. -/
theorem clock_rollover_monotone_witness :
    (absTimes none 0 [86399900, 100]).Chain' (· ≤ ·) :=
  clock_rollover_monotone.1 [86399900, 100] (by decide)

/-! ## Name shortening -/

/-- Claim C9: for a column width `w ≥ 10` (the floor applied by `main`) and
a method name longer than `w`, the rendered name is
`text[:left] ++ "..." ++ text[len - right:]` with `left + right = w - 3`,
the total length is exactly `w`, and `left` exceeds `right` by one when
`w - 3` is odd. -/
theorem ellipsize_centered (text : List Char) (w : Int)
    (h10 : 10 ≤ w) (hlen : w < (text.length : Int)) :
    ∃ left right : ℕ,
      (left : Int) + (right : Int) = w - 3 ∧
      ellipsize_middle text w =
        text.take left ++ ellipsisChars ++ text.drop (text.length - right) ∧
      ((ellipsize_middle text w).length : Int) = w ∧
      ((w - 3) % 2 = 1 → left = right + 1) := by
  have he3 : ellipsisChars.length = 3 := rfl
  have hw0 : ¬(w ≤ 0) := by omega
  have hl : ¬((text.length : Int) ≤ w) := by omega
  have hwn : (w.toNat : Int) = w := Int.toNat_of_nonneg (by omega)
  have hw3 : ¬(w ≤ (ellipsisChars.length : Int)) := by rw [he3]; omega
  have hkeep : ellipKeep w = w.toNat - 3 := by unfold ellipKeep; rw [he3]
  have hlv : ellipLeft w = (w.toNat - 3 + 1) / 2 := by unfold ellipLeft; rw [hkeep]
  have hrv : ellipRight w = (w.toNat - 3) - (w.toNat - 3 + 1) / 2 := by
    unfold ellipRight; rw [hkeep, hlv]
  have hrpos : 0 < ellipRight w := by rw [hrv]; omega
  have hresult : ellipsize_middle text w =
      text.take (ellipLeft w) ++ ellipsisChars ++
        text.drop (text.length - ellipRight w) := by
    unfold ellipsize_middle
    rw [if_neg hw0, if_neg hl, if_neg hw3, if_pos hrpos]
  refine ⟨ellipLeft w, ellipRight w, ?_, hresult, ?_, ?_⟩
  · rw [hlv, hrv]; omega
  · rw [hresult]
    simp only [List.length_append, List.length_take, List.length_drop, he3]
    rw [hlv, hrv]
    omega
  · rw [hlv, hrv]; omega

/-- Witness for C9 at a 16-character name and width 10. -/
theorem ellipsize_centered_witness :
    ∃ left right : ℕ,
      (left : Int) + (right : Int) = 10 - 3 ∧
      ellipsize_middle "abcdefghijklmnop".toList 10 =
        "abcdefghijklmnop".toList.take left ++ ellipsisChars ++
          "abcdefghijklmnop".toList.drop ("abcdefghijklmnop".toList.length - right) ∧
      ((ellipsize_middle "abcdefghijklmnop".toList 10).length : Int) = 10 ∧
      (((10 : Int) - 3) % 2 = 1 → left = right + 1) :=
  ellipsize_centered "abcdefghijklmnop".toList 10 (by decide) (by decide)

/-- Claim C10: `ellipsize_middle` is total and never overflows the width:
the result length is `min (length text) (max 0 maxLen)`; `maxLen ≤ 0` gives
the empty string, `length text ≤ maxLen` gives the text unchanged, and
`0 < maxLen ≤ 3` with a longer text gives the hard cut `text[:maxLen]`. -/
theorem ellipsize_total_function (text : List Char) (maxLen : Int) :
    ((ellipsize_middle text maxLen).length : Int) = min (text.length : Int) (max 0 maxLen) ∧
      (maxLen ≤ 0 → ellipsize_middle text maxLen = []) ∧
      ((text.length : Int) ≤ maxLen → ellipsize_middle text maxLen = text) ∧
      (0 < maxLen → maxLen ≤ 3 → maxLen < (text.length : Int) →
        ellipsize_middle text maxLen = text.take maxLen.toNat) := by
  have he3 : ellipsisChars.length = 3 := rfl
  have hkeep : ellipKeep maxLen = maxLen.toNat - 3 := by unfold ellipKeep; rw [he3]
  have hlv : ellipLeft maxLen = (ellipKeep maxLen + 1) / 2 := rfl
  have hrv : ellipRight maxLen = ellipKeep maxLen - ellipLeft maxLen := rfl
  unfold ellipsize_middle
  split_ifs with h1 h2 h3 h4
  · refine ⟨?_, fun _ => rfl, fun hle => ?_, fun hpos => absurd h1 (by omega)⟩
    · simp only [List.length_nil, Nat.cast_zero]
      omega
    · have h0 : text.length = 0 := by omega
      rw [List.length_eq_zero.mp h0]
  · refine ⟨?_, fun hc => absurd hc h1, fun _ => rfl, fun _ _ hlen => absurd hlen (by omega)⟩
    omega
  · rw [he3] at h3
    refine ⟨?_, fun hc => absurd hc h1, fun hc => absurd hc h2, fun _ _ _ => rfl⟩
    simp only [List.length_take]
    omega
  · rw [he3] at h3
    refine ⟨?_, fun hc => absurd hc h1, fun hc => absurd hc h2, fun _ hc => absurd hc h3⟩
    simp only [List.length_append, List.length_take, List.length_drop, he3]
    omega
  · rw [he3] at h3
    refine ⟨?_, fun hc => absurd hc h1, fun hc => absurd hc h2, fun _ hc => absurd hc h3⟩
    simp only [List.length_append, List.length_take, List.length_nil, he3]
    omega

/-- Witness for C10 at a 5-character text and width 2 (hard-cut case). -/
theorem ellipsize_total_function_witness :
    ellipsize_middle "abcde".toList 2 = "abcde".toList.take ((2 : Int)).toNat :=
  (ellipsize_total_function "abcde".toList 2).2.2.2 (by decide) (by decide) (by decide)

/-! ## Aggregation -/

theorem statCount_updateStats_self (s : List (String × Nat × Int)) (m : String) (d : Int) :
    statCount (updateStats s m d) m = statCount s m + 1 := by
  induction s with
  | nil => simp [updateStats, statCount]
  | cons e rest ih =>
    by_cases h : e.1 = m
    · simp [updateStats, statCount, h]
    · simp [updateStats, statCount, h, ih]

theorem statCount_updateStats_other (s : List (String × Nat × Int)) (m m2 : String) (d : Int)
    (hne : m2 ≠ m) : statCount (updateStats s m d) m2 = statCount s m2 := by
  induction s with
  | nil => simp [updateStats, statCount, Ne.symm hne]
  | cons e rest ih =>
    by_cases h : e.1 = m <;> by_cases h2 : e.1 = m2
    · exact absurd (h2.symm.trans h) hne
    · simp [updateStats, statCount, h, h2, Ne.symm hne]
    · simp [updateStats, statCount, h, h2, hne]
    · simp [updateStats, statCount, h, h2, ih]

theorem statTotal_updateStats_self (s : List (String × Nat × Int)) (m : String) (d : Int) :
    statTotal (updateStats s m d) m = statTotal s m + d := by
  induction s with
  | nil => simp [updateStats, statTotal]
  | cons e rest ih =>
    by_cases h : e.1 = m
    · simp [updateStats, statTotal, h]
    · simp [updateStats, statTotal, h, ih]

theorem statTotal_updateStats_other (s : List (String × Nat × Int)) (m m2 : String) (d : Int)
    (hne : m2 ≠ m) : statTotal (updateStats s m d) m2 = statTotal s m2 := by
  induction s with
  | nil => simp [updateStats, statTotal, Ne.symm hne]
  | cons e rest ih =>
    by_cases h : e.1 = m <;> by_cases h2 : e.1 = m2
    · exact absurd (h2.symm.trans h) hne
    · simp [updateStats, statTotal, h, h2, Ne.symm hne]
    · simp [updateStats, statTotal, h, h2, hne]
    · simp [updateStats, statTotal, h, h2, ih]

theorem stepEvent_entry (σ : St) (e : Event) (ha : e.arrow = '>') :
    stepEvent σ e =
      ({ callStacks := Function.update σ.callStacks e.tid
            ((e.method, (normStep σ.lastAbs σ.dayOffset (e.ms : Int)).1) :: σ.callStacks e.tid),
         stats := σ.stats,
         lastAbs := some (normStep σ.lastAbs σ.dayOffset (e.ms : Int)).1,
         dayOffset := (normStep σ.lastAbs σ.dayOffset (e.ms : Int)).2 }, none) := by
  unfold stepEvent
  rw [if_pos ha]

theorem stepEvent_exit_none (σ : St) (e : Event) (rest : List (String × Int))
    (ha : ¬(e.arrow = '>'))
    (hp : popMatch e.method (σ.callStacks e.tid) [] = (none, rest)) :
    stepEvent σ e =
      ({ callStacks := σ.callStacks, stats := σ.stats,
         lastAbs := some (normStep σ.lastAbs σ.dayOffset (e.ms : Int)).1,
         dayOffset := (normStep σ.lastAbs σ.dayOffset (e.ms : Int)).2 }, none) := by
  unfold stepEvent
  rw [if_neg ha, hp]

theorem stepEvent_exit_some (σ : St) (e : Event) (f : String × Int)
    (rest : List (String × Int)) (ha : ¬(e.arrow = '>'))
    (hp : popMatch e.method (σ.callStacks e.tid) [] = (some f, rest)) :
    stepEvent σ e =
      ({ callStacks := Function.update σ.callStacks e.tid rest,
         stats := if 0 ≤ (normStep σ.lastAbs σ.dayOffset (e.ms : Int)).1 - f.2 then
             updateStats σ.stats e.method ((normStep σ.lastAbs σ.dayOffset (e.ms : Int)).1 - f.2)
           else σ.stats,
         lastAbs := some (normStep σ.lastAbs σ.dayOffset (e.ms : Int)).1,
         dayOffset := (normStep σ.lastAbs σ.dayOffset (e.ms : Int)).2 },
        some (e.method, (normStep σ.lastAbs σ.dayOffset (e.ms : Int)).1 - f.2)) := by
  unfold stepEvent
  rw [if_neg ha, hp]

theorem stepEvent_emit (σ : St) (e : Event) (m : String) (d : Int)
    (h : (stepEvent σ e).2 = some (m, d)) :
    m = e.method ∧
      (stepEvent σ e).1.stats = if 0 ≤ d then updateStats σ.stats e.method d else σ.stats := by
  by_cases ha : e.arrow = '>'
  · rw [stepEvent_entry σ e ha] at h
    simp at h
  · rcases hp : popMatch e.method (σ.callStacks e.tid) [] with ⟨fo, rest⟩
    cases fo with
    | none =>
      rw [stepEvent_exit_none σ e rest ha hp] at h
      simp at h
    | some f =>
      rw [stepEvent_exit_some σ e f rest ha hp] at h ⊢
      simp only [Option.some_inj] at h
      have hm : e.method = m := congrArg Prod.fst h
      have hd : (normStep σ.lastAbs σ.dayOffset (e.ms : Int)).1 - f.2 = d := congrArg Prod.snd h
      refine ⟨hm.symm, ?_⟩
      rw [← hd]

theorem stepEvent_statCount (σ : St) (e : Event) (m : String) :
    statCount (stepEvent σ e).1.stats m =
      statCount σ.stats m +
        (stepEvent σ e).2.toList.countP (fun iv => decide (iv.1 = m ∧ 0 ≤ iv.2)) := by
  by_cases ha : e.arrow = '>'
  · rw [stepEvent_entry σ e ha]
    simp
  · rcases hp : popMatch e.method (σ.callStacks e.tid) [] with ⟨fo, rest⟩
    cases fo with
    | none =>
      rw [stepEvent_exit_none σ e rest ha hp]
      simp
    | some f =>
      rw [stepEvent_exit_some σ e f rest ha hp]
      simp only [Option.toList_some, List.countP_cons, List.countP_nil]
      by_cases hd : (0 : Int) ≤ (normStep σ.lastAbs σ.dayOffset (e.ms : Int)).1 - f.2
      · rw [if_pos hd]
        by_cases hm : e.method = m
        · rw [hm, statCount_updateStats_self]
          simp [hm, hd]
        · rw [statCount_updateStats_other _ _ _ _ (Ne.symm hm)]
          simp [hm]
      · rw [if_neg hd]
        simp [hd]

theorem runEvents_statCount (es : List Event) : ∀ (σ : St) (m : String),
    statCount (runEvents σ es).1.stats m =
      statCount σ.stats m +
        (runEvents σ es).2.countP (fun iv => decide (iv.1 = m ∧ 0 ≤ iv.2)) := by
  induction es with
  | nil => intro σ m; simp [runEvents]
  | cons e es ih =>
    intro σ m
    simp only [runEvents]
    rw [List.countP_append, ih (stepEvent σ e).1 m, stepEvent_statCount]
    omega

/-- Claim C6: a completed interval with nonnegative duration bumps its
method's count by exactly one and its total by exactly that duration,
leaving every other method untouched; a negative-duration interval is
discarded with the table unchanged; consequently each method's final count
equals the number of completed nonnegative-duration intervals observed for
it. -/
theorem aggregator_count_invariant :
    (∀ (σ : St) (e : Event) (m : String) (d : Int),
        (stepEvent σ e).2 = some (m, d) → 0 ≤ d →
          statCount (stepEvent σ e).1.stats m = statCount σ.stats m + 1 ∧
            statTotal (stepEvent σ e).1.stats m = statTotal σ.stats m + d ∧
            ∀ m2, m2 ≠ m →
              statCount (stepEvent σ e).1.stats m2 = statCount σ.stats m2 ∧
                statTotal (stepEvent σ e).1.stats m2 = statTotal σ.stats m2) ∧
      (∀ (σ : St) (e : Event) (m : String) (d : Int),
          (stepEvent σ e).2 = some (m, d) → d < 0 → (stepEvent σ e).1.stats = σ.stats) ∧
      ∀ (es : List Event) (m : String),
        statCount (runEvents initSt es).1.stats m =
          (runEvents initSt es).2.countP (fun iv => decide (iv.1 = m ∧ 0 ≤ iv.2)) := by
  refine ⟨?_, ?_, ?_⟩
  · intro σ e m d h hd
    obtain ⟨hm, hs⟩ := stepEvent_emit σ e m d h
    rw [hs, if_pos hd, hm]
    exact ⟨statCount_updateStats_self _ _ _, statTotal_updateStats_self _ _ _,
      fun m2 hne => ⟨statCount_updateStats_other _ _ _ _ (hm ▸ hne),
        statTotal_updateStats_other _ _ _ _ (hm ▸ hne)⟩⟩
  · intro σ e m d h hd
    obtain ⟨_, hs⟩ := stepEvent_emit σ e m d h
    rw [hs, if_neg (by omega)]
  · intro es m
    rw [runEvents_statCount]
    simp [initSt, statCount]

/-- Witness for C6 at a concrete matched exit with duration 5. -/
theorem aggregator_count_invariant_witness :
    statCount (stepEvent ⟨Function.update (fun _ => []) "0x1" [("A", 0)], [], none, 0⟩
        ⟨5, "0x1", '<', "A"⟩).1.stats "A" =
      statCount (⟨Function.update (fun _ => []) "0x1" [("A", 0)], [], none, 0⟩ : St).stats "A" + 1 ∧
      statTotal (stepEvent ⟨Function.update (fun _ => []) "0x1" [("A", 0)], [], none, 0⟩
        ⟨5, "0x1", '<', "A"⟩).1.stats "A" =
      statTotal (⟨Function.update (fun _ => []) "0x1" [("A", 0)], [], none, 0⟩ : St).stats "A" + 5 ∧
      ∀ m2, m2 ≠ "A" →
        statCount (stepEvent ⟨Function.update (fun _ => []) "0x1" [("A", 0)], [], none, 0⟩
            ⟨5, "0x1", '<', "A"⟩).1.stats m2 =
          statCount (⟨Function.update (fun _ => []) "0x1" [("A", 0)], [], none, 0⟩ : St).stats m2 ∧
          statTotal (stepEvent ⟨Function.update (fun _ => []) "0x1" [("A", 0)], [], none, 0⟩
              ⟨5, "0x1", '<', "A"⟩).1.stats m2 =
            statTotal (⟨Function.update (fun _ => []) "0x1" [("A", 0)], [], none, 0⟩ : St).stats m2 :=
  aggregator_count_invariant.1 ⟨Function.update (fun _ => []) "0x1" [("A", 0)], [], none, 0⟩
    ⟨5, "0x1", '<', "A"⟩ "A" 5 (by decide) (by decide)

/-! ## Reporting -/

theorem rowLE_iff (a b : Row) : rowLE a b = true ↔ reporterOrder a b := by
  unfold rowLE reporterOrder
  split_ifs with h1 h2 h3 h4
  · exact iff_of_true rfl (Or.inl h1)
  · refine iff_of_false (by simp) ?_
    rintro (h | ⟨he, _⟩)
    · exact absurd h h1
    · exact absurd he (ne_of_lt h2)
  · have heq : a.2.2.2 = b.2.2.2 := le_antisymm (not_lt.mp h1) (not_lt.mp h2)
    exact iff_of_true rfl (Or.inr ⟨heq, Or.inl h3⟩)
  · refine iff_of_false (by simp) ?_
    rintro (h | ⟨_, hc | ⟨hce, _⟩⟩)
    · exact absurd h h1
    · exact absurd hc h3
    · exact absurd hce (ne_of_lt h4)
  · have heq : a.2.2.2 = b.2.2.2 := le_antisymm (not_lt.mp h1) (not_lt.mp h2)
    have hceq : a.2.1 = b.2.1 := Nat.le_antisymm (not_lt.mp h3) (not_lt.mp h4)
    rw [decide_eq_true_eq]
    constructor
    · intro hle
      exact Or.inr ⟨heq, Or.inr ⟨hceq, hle⟩⟩
    · rintro (h | ⟨_, hc | ⟨_, hle⟩⟩)
      · exact absurd h h1
      · exact absurd hc h3
      · exact hle

theorem reporterOrder_total (a b : Row) : reporterOrder a b ∨ reporterOrder b a := by
  unfold reporterOrder
  rcases lt_trichotomy a.2.2.2 b.2.2.2 with h | h | h
  · exact Or.inr (Or.inl h)
  · rcases lt_trichotomy a.2.1 b.2.1 with hc | hc | hc
    · exact Or.inr (Or.inr ⟨h.symm, Or.inl hc⟩)
    · rcases le_total a.1 b.1 with hs | hs
      · exact Or.inl (Or.inr ⟨h, Or.inr ⟨hc, hs⟩⟩)
      · exact Or.inr (Or.inr ⟨h.symm, Or.inr ⟨hc.symm, hs⟩⟩)
    · exact Or.inl (Or.inr ⟨h, Or.inl hc⟩)
  · exact Or.inl (Or.inl h)

theorem reporterOrder_trans (a b c : Row) (hab : reporterOrder a b)
    (hbc : reporterOrder b c) : reporterOrder a c := by
  unfold reporterOrder at hab hbc ⊢
  rcases hab with h1 | ⟨he1, hr1⟩
  · rcases hbc with h2 | ⟨he2, _⟩
    · exact Or.inl (h2.trans h1)
    · exact Or.inl (by rw [← he2]; exact h1)
  · rcases hbc with h2 | ⟨he2, hr2⟩
    · exact Or.inl (h2.trans_eq he1.symm)
    · refine Or.inr ⟨he1.trans he2, ?_⟩
      rcases hr1 with hc1 | ⟨hce1, hs1⟩
      · rcases hr2 with hc2 | ⟨hce2, _⟩
        · exact Or.inl (hc2.trans hc1)
        · exact Or.inl (by rw [← hce2]; exact hc1)
      · rcases hr2 with hc2 | ⟨hce2, hs2⟩
        · exact Or.inl (hc2.trans_eq hce1.symm)
        · exact Or.inr ⟨hce1.trans hce2, hs1.trans hs2⟩

instance : IsTotal Row rowOrder :=
  ⟨fun a b => by
    unfold rowOrder
    rw [rowLE_iff, rowLE_iff]
    exact reporterOrder_total a b⟩

instance : IsTrans Row rowOrder :=
  ⟨fun a b c hab hbc => by
    unfold rowOrder at hab hbc ⊢
    rw [rowLE_iff] at hab hbc ⊢
    exact reporterOrder_trans a b c hab hbc⟩

/-- Claim C8: the default ordering of `compute_stats` sorts rows by
descending average duration, with ties broken by descending count and then
by ascending method name: the comparison `(-avg, -count, method)` coincides
with that rule, and the returned list is a permutation of the raw rows
sorted by it. -/
theorem reporter_default_order :
    (∀ a b : Row, rowLE a b = true ↔ reporterOrder a b) ∧
      ∀ lines : List String, (computeStats lines).Sorted reporterOrder ∧
        (computeStats lines).Perm (rawResult lines) := by
  refine ⟨rowLE_iff, fun lines => ⟨?_, ?_⟩⟩
  · simp only [computeStats]
    exact (List.sorted_insertionSort rowOrder (rawResult lines)).imp
      (fun hxy => (rowLE_iff _ _).mp hxy)
  · simp only [computeStats]
    exact List.perm_insertionSort rowOrder (rawResult lines)

/-- Claim C5: the four-line example input produces exactly two rows,
`foo()V` with count 1, total 120 ms, average 120, then `bar()V` with
count 1, total 30 ms, average 30, in that default order. -/
theorem end_to_end_example :
    computeStats ["10:00:00:000 0x1 > foo()V", "10:00:00:050 0x1 > bar()V",
        "10:00:00:080 0x1 < bar()V", "10:00:00:120 0x1 < foo()V"] =
      [("foo()V", 1, 120, (120 : ℚ)), ("bar()V", 1, 30, (30 : ℚ))] := by
  have hstats : (runEvents initSt (toEvents ["10:00:00:000 0x1 > foo()V",
      "10:00:00:050 0x1 > bar()V", "10:00:00:080 0x1 < bar()V",
      "10:00:00:120 0x1 < foo()V"])).1.stats = [("bar()V", 1, 30), ("foo()V", 1, 120)] := by
    decide
  have hb : mkRow ("bar()V", 1, 30) = ("bar()V", 1, 30, (30 : ℚ)) := by
    norm_num [mkRow]
  have hf : mkRow ("foo()V", 1, 120) = ("foo()V", 1, 120, (120 : ℚ)) := by
    norm_num [mkRow]
  simp only [computeStats, rawResult]
  rw [hstats, List.map_cons, List.map_cons, List.map_nil, hb, hf]
  decide

/-! ## Line parsing -/

theorem findArrow_eq_some_iff (cs : List Char) (ar : Char) (tok : List Char) :
    findArrow cs = some (ar, tok) ↔
      ∃ pre rest, cs = pre ++ ar :: rest ∧ isMarker ar = true ∧
        checkWsToken rest = some tok ∧ (∀ c ∈ pre, c ≠ '\n') ∧
        ∀ p c q, pre = p ++ c :: q → qualifies (c :: (q ++ ar :: rest)) = false := by
  induction cs with
  | nil =>
    constructor
    · intro h
      simp [findArrow] at h
    · rintro ⟨pre, rest, habs, -, -, -, -⟩
      exact ((List.cons_ne_nil ar rest) (List.append_eq_nil.mp habs.symm).2).elim
  | cons c cs ih =>
    by_cases hnl : c = '\n'
    · subst hnl
      constructor
      · intro h
        simp [findArrow] at h
      · rintro ⟨pre, rest, heq, hm, hc, hpre, hfirst⟩
        cases pre with
        | nil =>
          simp only [List.nil_append] at heq
          injection heq with h1 h2
          rw [← h1] at hm
          exact absurd hm (by decide)
        | cons p ps =>
          simp only [List.cons_append] at heq
          injection heq with h1 h2
          exact ((hpre p (List.mem_cons_self p ps)) h1.symm).elim
    · by_cases hq : qualifies (c :: cs) = true
      · have hparts : isMarker c = true ∧ (checkWsToken cs).isSome = true := by
          have h := hq
          simp only [qualifies, Bool.and_eq_true] at h
          exact h
        have hmk := hparts.1
        obtain ⟨t, ht⟩ := Option.isSome_iff_exists.mp hparts.2
        have hstep : findArrow (c :: cs) = some (c, t) := by
          simp [findArrow, hnl, hmk, ht]
        rw [hstep]
        constructor
        · intro h
          injection h with hpair
          have h1 : c = ar := congrArg Prod.fst hpair
          have h2 : t = tok := congrArg Prod.snd hpair
          refine ⟨[], cs, by rw [List.nil_append, h1], by rw [← h1]; exact hmk,
            by rw [← h2]; exact ht, fun x hx => absurd hx (List.not_mem_nil x),
            fun p c2 q hp => absurd hp (by simp)⟩
        · rintro ⟨pre, rest, heq, hm, hc, hpre, hfirst⟩
          cases pre with
          | nil =>
            simp only [List.nil_append] at heq
            injection heq with h1 h2
            rw [← h2] at hc
            have h3 := ht.symm.trans hc
            injection h3 with h4
            rw [h1, h4]
          | cons p ps =>
            simp only [List.cons_append] at heq
            injection heq with h1 h2
            have hff := hfirst [] p ps (by simp)
            rw [← h1, ← h2] at hff
            simp [hq] at hff
      · have hq' : qualifies (c :: cs) = false := Bool.eq_false_iff.mpr hq
        have hstep : findArrow (c :: cs) = findArrow cs := by
          by_cases hmk : isMarker c = true
          · have hx : (checkWsToken cs).isSome = false := by
              have h := hq'
              simp only [qualifies, hmk, Bool.true_and] at h
              exact h
            have hnone : checkWsToken cs = none := by
              rcases hcw : checkWsToken cs with - | t
              · rfl
              · rw [hcw] at hx
                simp at hx
            simp [findArrow, hnl, hmk, hnone]
          · simp [findArrow, hnl, hmk]
        rw [hstep, ih]
        constructor
        · rintro ⟨pre, rest, heq, hm, hcc, hpre, hfirst⟩
          refine ⟨c :: pre, rest, by rw [List.cons_append, heq], hm, hcc, ?_, ?_⟩
          · intro x hx
            rcases List.mem_cons.mp hx with hx | hx
            · rw [hx]; exact hnl
            · exact hpre x hx
          · intro p c2 q hp
            cases p with
            | nil =>
              simp only [List.nil_append] at hp
              injection hp with h1 h2
              rw [← h1, ← h2, ← heq]
              exact hq'
            | cons p1 ps =>
              simp only [List.cons_append] at hp
              injection hp with h1 h2
              exact hfirst ps c2 q h2
        · rintro ⟨pre, rest, heq, hm, hcc, hpre, hfirst⟩
          cases pre with
          | nil =>
            simp only [List.nil_append] at heq
            injection heq with h1 h2
            have hcq : qualifies (c :: cs) = true := by
              simp [qualifies, h1, h2, hm, hcc]
            rw [hcq] at hq'
            simp at hq'
          | cons p ps =>
            simp only [List.cons_append] at heq
            injection heq with h1 h2
            refine ⟨ps, rest, h2, hm, hcc,
              fun x hx => hpre x (List.mem_cons_of_mem p hx), ?_⟩
            intro p2 c2 q hp2
            exact hfirst (p :: p2) c2 q (by rw [hp2, List.cons_append])

/-- Claim C2 as amended: the direction marker and method of a matched line
are taken from the first occurrence, after the thread token, of a direction
marker that is itself followed by whitespace and a whitespace-free token
(an earlier marker without that suffix is skipped, not rejected); a line
the grammar does not match in full yields no event, so it changes neither
per-thread stacks nor rollover state nor statistics. -/
theorem line_first_qualifying_marker :
    (∀ (cs : List Char) (ar : Char) (tok : List Char),
        findArrow cs = some (ar, tok) ↔
          ∃ pre rest, cs = pre ++ ar :: rest ∧ isMarker ar = true ∧
            checkWsToken rest = some tok ∧ (∀ c ∈ pre, c ≠ '\n') ∧
            ∀ p c q, pre = p ++ c :: q → qualifies (c :: (q ++ ar :: rest)) = false) ∧
      ∀ (l : String) (ls1 ls2 : List String), lineEvent l = none →
        iterLines (ls1 ++ l :: ls2) = iterLines (ls1 ++ ls2) := by
  refine ⟨findArrow_eq_some_iff, fun l ls1 ls2 h => ?_⟩
  simp [iterLines, List.filterMap_append, List.filterMap_cons, h]

/-- Witness for amended C2: an unparseable first line is skipped with no
effect on the event stream. -/
theorem line_first_qualifying_marker_witness :
    iterLines ([] ++ "junk" :: ["10:00:00:000 0x1 > foo()V"]) =
      iterLines ([] ++ ["10:00:00:000 0x1 > foo()V"]) :=
  line_first_qualifying_marker.2 "junk" [] ["10:00:00:000 0x1 > foo()V"] (by decide)

/-- Counterexample to claim C2 as stated: on the line
`10:00:00:000 0x1 <x > foo()V` the first direction marker after the thread
token is `<`, but that `<` is not followed by whitespace, so the regex
search absorbs it into the slack and matches the later `>`: the parser
yields direction `>` (an Entry), not the first-occurrence marker `<`. -/
theorem first_marker_counterexample :
    firstMarkerAfterTid "10:00:00:000 0x1 <x > foo()V".toList = some '<' ∧
      (parseLine "10:00:00:000 0x1 <x > foo()V".toList).map (fun r => r.2.2.1) = some '>' ∧
      ('>' : Char) ≠ '<' :=
  ⟨by decide, by decide, by decide⟩

end XtraceStats
